import Mathlib

/-!
Shallow embedding of the hidden-order RSA group core of `gottstech/accumulator`
(`src/group/mod.rs`, `src/group/rsa3x5.rs`, `src/group/rsa100.rs`).

The two concrete groups `Rsa3x5` and `Rsa100` differ only in their modulus
constant; every other line of their implementations is identical.  We therefore
embed the element representation and the operations once, parameterised by the
modulus `M : ℤ`, and instantiate the parameter at the two moduli.

Integer semantics of the `rug` (GMP) arithmetic used by the source:
  * `%` on `rug::Integer` is the truncating remainder (`mpz_tdiv_r`): the
    result has the sign of the dividend.  It is embedded as `Int.tmod`.
  * `div_rem_euc` is Euclidean division: the remainder is in `[0, |M|)`.
    Its remainder component is embedded as `Int.emod`.
  * `/` on `rug::Integer` truncates toward zero; on the positive modulus it
    agrees with `Int.ediv`, so `HALF_MODULUS` is embedded as `M / 2`.
  * `pow_mod` with a non-negative exponent returns `b ^ n mod M ∈ [0, M)`,
    embedded as `(b ^ n) % M`.
  * `invert` returns the unique inverse in `[0, M)` when the operand is
    invertible and signals failure otherwise; the failure (the `.unwrap()`
    panic in `inv_`) is embedded as `Option.none`.
-/

/-- `RSA3X5_MODULUS`: the modulus of the tiny test group `Rsa3x5`
(`RSA3X5_MODULUS_DECIMAL = "15"`). -/
def rsa3x5Modulus : ℤ := 15

/-- `RSA100_MODULUS`: the modulus of the `Rsa100` group.  The Rust string
constant contains an escaped line break plus ignored ASCII whitespace, so it
parses to the concatenation of the two digit runs, the RSA-100 number. -/
def rsa100Modulus : ℤ :=
  1522605027922533360535618378132637429718068114961380688657908494580122963258952897654000350692006139

/-- `HALF_MODULUS = MODULUS / 2` (truncating division on the positive modulus). -/
def halfModulus (M : ℤ) : ℤ := M / 2

/-- A group element (`Rsa3x5Elem` / `Rsa100Elem`): wraps one big integer.
Element equality in the source is the derived `PartialEq` on the wrapped
integer, i.e. literal equality of the stored values. -/
structure RsaElem where
  v : ℤ
deriving DecidableEq

/-- `ElemFrom::elem`: `val = int(t) % modulus` with the truncating `%`; if
`val > HALF_MODULUS`, store the Euclidean remainder of `-val` by the modulus,
else store `val` unchanged. -/
def elem (M t : ℤ) : RsaElem :=
  let val := Int.tmod t M
  if halfModulus M < val then ⟨(-val) % M⟩ else ⟨val⟩

/-- `Group::id_`: the canonical form of the integer `1`. -/
def id_ (M : ℤ) : RsaElem := elem M 1

/-- `Group::op_`: `Self::elem(int(&a.0 * &b.0) % modulus)`. -/
def op_ (M : ℤ) (a b : RsaElem) : RsaElem := elem M (Int.tmod (a.v * b.v) M)

/-- The GMP `pow_mod` primitive for a non-negative exponent: `b ^ n mod M`,
with a non-negative result in `[0, M)` (for `M > 0`). -/
def powMod (b : ℤ) (n : ℕ) (M : ℤ) : ℤ := (b ^ n) % M

/-- `Group::exp_`: `Self::elem(x.0.pow_mod_ref(n, modulus).unwrap())` for a
non-negative exponent `n`. -/
def exp_ (M : ℤ) (x : RsaElem) (n : ℕ) : RsaElem := elem M (powMod x.v n M)

/-- The GMP `invert` primitive: the unique modular inverse in `[0, M)` when
`gcd(a, M) = 1`, and failure (`none`) otherwise.  The concrete representative
is produced with the extended Euclidean coefficient `Nat.gcdA` reduced into
`[0, M)`. -/
def invert (a M : ℤ) : Option ℤ :=
  if Int.gcd a M = 1 then
    some ((Nat.gcdA ((a % M).toNat) (Int.toNat M)) % M)
  else none

/-- `Group::inv_`: `Self::elem(x.0.invert_ref(modulus).unwrap())`; the
`unwrap` panic on a non-invertible operand is embedded as `none`. -/
def inv_ (M : ℤ) (x : RsaElem) : Option RsaElem := Option.map (elem M) (invert x.v M)

/-- `UnknownOrderGroup::unknown_order_elem_`: `Self::elem(2)`. -/
def unknownOrderElem (M : ℤ) : RsaElem := elem M 2

/-- `BigInt::to_biguint`: `some` of the magnitude iff the operand is
non-negative, `none` otherwise. -/
def toBiguint (z : ℤ) : Option ℕ := if 0 ≤ z then some (Int.toNat z) else none

/-- `Inverse::pow_signed`, generic over the trait methods `pow` (`pw`) and
`efficient_inverse` (`effInv`) exactly as in `src/group/mod.rs`; the `expect`
panic in the negative branch is embedded as `none` (via `Option.map`). -/
def powSigned (pw effInv : RsaElem → ℕ → RsaElem) (x : RsaElem) (e : ℤ) :
    Option RsaElem :=
  match toBiguint e with
  | some value => some (pw x value)
  | none => Option.map (effInv x) (toBiguint (-e))

/-- Modelled from the spec: the `Pow` implementation for the concrete RSA
groups is not under `src/` (only the trait is); §4.3 of the spec states that
it delegates to the concrete group's `exp`. -/
def pow (M : ℤ) (x : RsaElem) (n : ℕ) : RsaElem := exp_ M x n

/-- The n-fold composition of `x` with itself under `op_`, with the 0-fold
composition being the identity element (the naive reference for `exp_`). -/
def iterOp (M : ℤ) (x : RsaElem) : ℕ → RsaElem
  | 0 => id_ M
  | n + 1 => op_ M (iterOp M x n) x

/-- The spec's canonical-representation invariant: `0 ≤ v ≤ M/2`. -/
def Canonical (M : ℤ) (x : RsaElem) : Prop := 0 ≤ x.v ∧ x.v ≤ halfModulus M

instance (M : ℤ) (x : RsaElem) : Decidable (Canonical M x) := by
  unfold Canonical; exact inferInstance

/-- The stored-value range that every constructor of the source actually
guarantees: strictly between `-M` and `M/2` inclusive. -/
def Stored (M : ℤ) (x : RsaElem) : Prop := -M < x.v ∧ x.v ≤ halfModulus M

instance (M : ℤ) (x : RsaElem) : Decidable (Stored M x) := by
  unfold Stored; exact inferInstance

/-- The canonicalisation map on a residue already reduced into `[0, M)`. -/
def canon (M r : ℤ) : ℤ := if halfModulus M < r then M - r else r

/-- The modulus of either concrete group of the repository. -/
def IsGroupModulus (M : ℤ) : Prop := M = rsa3x5Modulus ∨ M = rsa100Modulus

section Helpers

variable {M : ℤ}

theorem groupModulus_pos (hM : IsGroupModulus M) : 0 < M := by
  rcases hM with h | h <;> subst h
  · norm_num [rsa3x5Modulus]
  · norm_num [rsa100Modulus]

theorem groupModulus_half_pos (hM : IsGroupModulus M) : 2 ≤ halfModulus M := by
  rcases hM with h | h <;> subst h
  · norm_num [rsa3x5Modulus, halfModulus]
  · norm_num [rsa100Modulus, halfModulus]

theorem tmod_neg_left (a b : ℤ) : Int.tmod (-a) b = -(Int.tmod a b) := by
  rw [Int.tmod_def, Int.tmod_def, Int.neg_tdiv]; ring

theorem tmod_eq_self (hM : 0 < M) {a : ℤ} (h1 : -M < a) (h2 : a < M) :
    Int.tmod a M = a := by
  rcases le_or_lt 0 a with ha | ha
  · exact Int.tmod_eq_of_lt ha h2
  · have h3 : Int.tmod (-(-a)) M = -(Int.tmod (-a) M) := tmod_neg_left (-a) M
    rw [neg_neg] at h3
    rw [h3, Int.tmod_eq_of_lt (by omega) (by omega)]
    ring

theorem tmod_eq_emod_of_nonneg (hM : 0 < M) {a : ℤ} (h : 0 ≤ a) :
    Int.tmod a M = a % M :=
  Int.tmod_eq_emod h (le_of_lt hM)

theorem neg_emod_eq (hM : 0 < M) {v : ℤ} (h1 : 0 < v) (h2 : v < M) :
    (-v) % M = M - v := by
  have h3 : (-v) % M = (-v + M * 1) % M := by
    rw [Int.add_mul_emod_self_left]
  have h4 : -v + M * 1 = M - v := by ring
  rw [h3, h4]
  exact Int.emod_eq_of_lt (by omega) (by omega)

theorem halfModulus_lt (hM : 0 < M) : halfModulus M < M := by
  unfold halfModulus; omega

theorem halfModulus_nonneg (hM : 0 < M) : 0 ≤ halfModulus M := by
  unfold halfModulus; omega

/-- `elem` on a value already in the stored range is the identity. -/
theorem elem_eq_self (hM : 0 < M) {a : ℤ} (h1 : -M < a) (h2 : a ≤ halfModulus M) :
    elem M a = ⟨a⟩ := by
  unfold elem
  rw [tmod_eq_self hM h1 (lt_of_le_of_lt h2 (halfModulus_lt hM))]
  simp [not_lt.mpr h2]

/-- `elem` on a non-negative argument reduces mod `M` and canonicalises. -/
theorem elem_nonneg (hM : 0 < M) {t : ℤ} (ht : 0 ≤ t) :
    elem M t = ⟨canon M (t % M)⟩ := by
  unfold elem canon
  rw [tmod_eq_emod_of_nonneg hM ht]
  by_cases h : halfModulus M < t % M
  · have hlt : t % M < M := Int.emod_lt_of_pos t hM
    have hpos : 0 < t % M :=
      lt_of_le_of_lt (halfModulus_nonneg hM) h
    simp only [if_pos h]
    rw [neg_emod_eq hM hpos hlt]
  · simp only [if_neg h]

theorem canon_range (hM : 0 < M) {r : ℤ} (h1 : 0 ≤ r) (h2 : r < M) :
    0 ≤ canon M r ∧ canon M r ≤ halfModulus M := by
  unfold canon
  by_cases h : halfModulus M < r
  · simp only [if_pos h]
    unfold halfModulus at h ⊢
    omega
  · simp only [if_neg h]
    exact ⟨h1, not_lt.mp h⟩

/-- Canonicalisation sends a residue and its negation-mod-M to one value. -/
theorem canon_flip (hM : 0 < M) {r : ℤ} (h1 : 0 < r) (h2 : r < M) :
    canon M (M - r) = canon M r := by
  unfold canon halfModulus
  by_cases h : M / 2 < r
  · rw [if_neg (by omega), if_pos h]
  · by_cases h2' : M / 2 < M - r
    · rw [if_pos h2', if_neg h]
      ring_nf
    · rw [if_neg h2', if_neg h]
      omega

theorem canon_modeq (hM : 0 < M) (r : ℤ) :
    canon M r ≡ r [ZMOD M] ∨ canon M r ≡ -r [ZMOD M] := by
  unfold canon
  by_cases h : halfModulus M < r
  · right
    simp only [if_pos h]
    have : (M : ℤ) - r - -r = M * 1 := by ring
    exact Int.ModEq.symm (Int.modEq_iff_dvd.mpr ⟨1, by linarith⟩)
  · left
    simp only [if_neg h]
    exact Int.ModEq.refl r

/-- The key coset lemma: on non-negative inputs, `canon ∘ (· % M)` identifies
exactly the pairs `{t, -t}` of residues. -/
theorem canon_emod_coset (hM : 0 < M) {s t : ℤ} (hs : 0 ≤ s)
    (h : s ≡ t [ZMOD M] ∨ s ≡ -t [ZMOD M]) :
    canon M (s % M) = canon M (t % M) := by
  rcases h with h | h
  · rw [Int.ModEq] at h
    rw [h]
  · have hst : s % M = (-t) % M := h
    by_cases hz : t % M = 0
    · have hnz : (-t) % M = 0 := by
        have hd : (M : ℤ) ∣ t := Int.dvd_of_emod_eq_zero hz
        exact Int.emod_eq_zero_of_dvd (dvd_neg.mpr hd)
      rw [hst, hnz, hz]
    · have hr1 : 0 < t % M := by
        have := Int.emod_nonneg t (ne_of_gt hM)
        omega
      have hr2 : t % M < M := Int.emod_lt_of_pos t hM
      have hneg : (-t) % M = M - t % M := by
        have hself : t ≡ t % M [ZMOD M] := (Int.emod_emod t M).symm
        have h3 : (-t) % M = (-(t % M)) % M :=
          Int.ModEq.neg hself
        rw [h3, neg_emod_eq hM hr1 hr2]
      rw [hst, hneg, canon_flip hM hr1 hr2]

end Helpers


theorem RsaElem.ext {a b : RsaElem} (h : a.v = b.v) : a = b := by
  cases a; cases b; cases h; rfl

section Derived

variable {M : ℤ}

theorem canon_emod_modeq (hM : 0 < M) (t : ℤ) :
    canon M (t % M) ≡ t [ZMOD M] ∨ canon M (t % M) ≡ -t [ZMOD M] := by
  rcases canon_modeq hM (t % M) with h | h
  · left
    exact h.trans (Int.emod_emod t M)
  · right
    exact h.trans (Int.ModEq.neg (Int.emod_emod t M))

theorem pm_trans {n s t u : ℤ}
    (hs : s ≡ u [ZMOD n] ∨ s ≡ -u [ZMOD n])
    (ht : t ≡ u [ZMOD n] ∨ t ≡ -u [ZMOD n]) :
    s ≡ t [ZMOD n] ∨ s ≡ -t [ZMOD n] := by
  rcases hs with h1 | h1 <;> rcases ht with h2 | h2
  · exact Or.inl (h1.trans h2.symm)
  · have h3 : -t ≡ -(-u) [ZMOD n] := h2.neg
    rw [neg_neg] at h3
    exact Or.inr (h1.trans h3.symm)
  · exact Or.inr (h1.trans h2.neg.symm)
  · exact Or.inl (h1.trans h2.symm)

theorem elem_v_nonneg (hM : 0 < M) {t : ℤ} (ht : 0 ≤ t) :
    (elem M t).v = canon M (t % M) := by
  rw [elem_nonneg hM ht]

/-- `op_` on elements with non-negative stored values, in closed form. -/
theorem op_v (hM : 0 < M) {a b : RsaElem} (ha : 0 ≤ a.v) (hb : 0 ≤ b.v) :
    (op_ M a b).v = canon M ((a.v * b.v) % M) := by
  unfold op_
  rw [tmod_eq_emod_of_nonneg hM (mul_nonneg ha hb),
    elem_v_nonneg hM (Int.emod_nonneg _ (ne_of_gt hM)), Int.emod_emod]

/-- `exp_` in closed form, for an arbitrary element. -/
theorem exp_v (hM : 0 < M) (x : RsaElem) (n : ℕ) :
    (exp_ M x n).v = canon M ((x.v ^ n) % M) := by
  unfold exp_ powMod
  rw [elem_v_nonneg hM (Int.emod_nonneg _ (ne_of_gt hM)), Int.emod_emod]

theorem elem_canonical (hM : 0 < M) {t : ℤ} (ht : 0 ≤ t) :
    Canonical M (elem M t) := by
  have h := elem_v_nonneg hM ht
  constructor <;> rw [h]
  · exact (canon_range hM (Int.emod_nonneg _ (ne_of_gt hM))
      (Int.emod_lt_of_pos _ hM)).1
  · exact (canon_range hM (Int.emod_nonneg _ (ne_of_gt hM))
      (Int.emod_lt_of_pos _ hM)).2

theorem id_val (hM : 0 < M) (hhalf : 1 ≤ halfModulus M) : id_ M = ⟨1⟩ := by
  unfold id_
  exact elem_eq_self hM (by omega) hhalf

theorem op_id (hM : 0 < M) {a : RsaElem} (ha : Stored M a)
    (hhalf : 1 ≤ halfModulus M) : op_ M a (id_ M) = a := by
  obtain ⟨h1, h2⟩ := ha
  rw [id_val hM hhalf]
  unfold op_
  show elem M (Int.tmod (a.v * 1) M) = a
  rw [mul_one, tmod_eq_self hM h1 (lt_of_le_of_lt h2 (halfModulus_lt hM)),
    elem_eq_self hM h1 h2]

theorem op_comm (a b : RsaElem) : op_ M a b = op_ M b a := by
  unfold op_
  rw [mul_comm]

theorem canon_emod_nonneg (hM : 0 < M) (t : ℤ) : 0 ≤ canon M (t % M) :=
  (canon_range hM (Int.emod_nonneg _ (ne_of_gt hM)) (Int.emod_lt_of_pos _ hM)).1

theorem op_assoc_canonical (hM : 0 < M) {a b c : RsaElem}
    (ha : Canonical M a) (hb : Canonical M b) (hc : Canonical M c) :
    op_ M (op_ M a b) c = op_ M a (op_ M b c) := by
  apply RsaElem.ext
  have habv := op_v hM ha.1 hb.1
  have hbcv := op_v hM hb.1 hc.1
  have habC : 0 ≤ (op_ M a b).v := habv ▸ canon_emod_nonneg hM _
  have hbcC : 0 ≤ (op_ M b c).v := hbcv ▸ canon_emod_nonneg hM _
  rw [op_v hM habC hc.1, op_v hM ha.1 hbcC, habv, hbcv]
  apply canon_emod_coset hM (mul_nonneg (canon_emod_nonneg hM _) hc.1)
  have h1 : canon M ((a.v * b.v) % M) * c.v ≡ a.v * b.v * c.v [ZMOD M] ∨
      canon M ((a.v * b.v) % M) * c.v ≡ -(a.v * b.v * c.v) [ZMOD M] := by
    rcases canon_emod_modeq hM (a.v * b.v) with h | h
    · exact Or.inl (h.mul_right c.v)
    · have h4 := h.mul_right c.v
      rw [neg_mul] at h4
      exact Or.inr h4
  have h2 : a.v * canon M ((b.v * c.v) % M) ≡ a.v * b.v * c.v [ZMOD M] ∨
      a.v * canon M ((b.v * c.v) % M) ≡ -(a.v * b.v * c.v) [ZMOD M] := by
    rcases canon_emod_modeq hM (b.v * c.v) with h | h
    · have h4 := h.mul_left a.v
      rw [← mul_assoc] at h4
      exact Or.inl h4
    · have h4 := h.mul_left a.v
      rw [mul_neg, ← mul_assoc] at h4
      exact Or.inr h4
  exact pm_trans h1 h2

end Derived

section InvertSpec

variable {M : ℤ}

theorem gcd_emod_left (hM : 0 < M) (a : ℤ) :
    Int.gcd (a % M) M = Int.gcd a M := by
  apply Nat.dvd_antisymm
  · apply Nat.dvd_gcd
    · have h1 : (Int.gcd (a % M) M : ℤ) ∣ a % M := Int.gcd_dvd_left
      have h2 : (Int.gcd (a % M) M : ℤ) ∣ M := Int.gcd_dvd_right
      have h3 : (Int.gcd (a % M) M : ℤ) ∣ a % M + M * (a / M) :=
        dvd_add h1 (Dvd.dvd.mul_right h2 _)
      have h4 : a % M + M * (a / M) = a := by
        have := Int.emod_def a M
        linarith
      rw [h4] at h3
      exact Int.natCast_dvd_natCast.mp (by
        simpa [Int.dvd_natAbs] using h3)
    · exact Int.natCast_dvd_natCast.mp (by
        simpa [Int.dvd_natAbs] using (Int.gcd_dvd_right :
          (Int.gcd (a % M) M : ℤ) ∣ M))
  · apply Nat.dvd_gcd
    · have h1 : (Int.gcd a M : ℤ) ∣ a := Int.gcd_dvd_left
      have h2 : (Int.gcd a M : ℤ) ∣ M := Int.gcd_dvd_right
      have h3 : (Int.gcd a M : ℤ) ∣ a - M * (a / M) :=
        dvd_sub h1 (Dvd.dvd.mul_right h2 _)
      have h4 : a - M * (a / M) = a % M := (Int.emod_def a M).symm
      rw [h4] at h3
      exact Int.natCast_dvd_natCast.mp (by
        simpa [Int.dvd_natAbs] using h3)
    · exact Int.natCast_dvd_natCast.mp (by
        simpa [Int.dvd_natAbs] using (Int.gcd_dvd_right :
          (Int.gcd a M : ℤ) ∣ M))

/-- The GMP invert oracle: existence, range and the defining congruence. -/
theorem invert_spec (hM : 0 < M) {a : ℤ} (h : Int.gcd a M = 1) :
    ∃ y, invert a M = some y ∧ 0 ≤ y ∧ y < M ∧ a * y ≡ 1 [ZMOD M] := by
  refine ⟨Nat.gcdA ((a % M).toNat) (Int.toNat M) % M, by rw [invert, if_pos h],
    Int.emod_nonneg _ (ne_of_gt hM), Int.emod_lt_of_pos _ hM, ?_⟩
  have hrM : (((a % M).toNat : ℤ)) = a % M :=
    Int.toNat_of_nonneg (Int.emod_nonneg a (ne_of_gt hM))
  have hMnat : ((Int.toNat M : ℤ)) = M := Int.toNat_of_nonneg (le_of_lt hM)
  have hgcdNat : Nat.gcd ((a % M).toNat) (Int.toNat M) = 1 := by
    rw [← Int.gcd_natCast_natCast, hrM, hMnat]
    rw [gcd_emod_left hM a]
    exact h
  have hbez := Nat.gcd_eq_gcd_ab ((a % M).toNat) (Int.toNat M)
  rw [hgcdNat] at hbez
  set A := Nat.gcdA ((a % M).toNat) (Int.toNat M) with hA
  set B := Nat.gcdB ((a % M).toNat) (Int.toNat M) with hB
  have hbez2 : (a % M) * A ≡ 1 [ZMOD M] := by
    apply Int.modEq_iff_dvd.mpr
    refine ⟨B, ?_⟩
    have hb : (1 : ℤ) = (((a % M).toNat : ℤ)) * A + ((Int.toNat M : ℤ)) * B := by
      exact_mod_cast hbez
    rw [hrM, hMnat] at hb
    linarith
  calc a * (A % M)
      ≡ a * A [ZMOD M] := Int.ModEq.mul_left a (Int.emod_emod _ M)
    _ ≡ (a % M) * A [ZMOD M] :=
        Int.ModEq.mul_right A (Int.emod_emod a M).symm
    _ ≡ 1 [ZMOD M] := hbez2

end InvertSpec

section MoreDerived

variable {M : ℤ}

/-- Every output of the constructor lies in `(-M, M/2]` (but not necessarily
in `[0, M/2]`: the truncating `%` lets negative inputs through unchanged). -/
theorem elem_stored (hM : 0 < M) (t : ℤ) : Stored M (elem M t) := by
  have hub : Int.tmod t M < M := Int.tmod_lt_of_pos t hM
  have hlb : -M < Int.tmod t M := by
    have h2 : Int.tmod (-t) M < M := Int.tmod_lt_of_pos (-t) hM
    rw [tmod_neg_left t M] at h2
    omega
  unfold elem Stored
  by_cases h : halfModulus M < Int.tmod t M
  · rw [if_pos h]
    have hpos : 0 < Int.tmod t M :=
      lt_of_le_of_lt (halfModulus_nonneg hM) h
    rw [neg_emod_eq hM hpos hub]
    constructor
    · show -M < M - Int.tmod t M
      omega
    · show M - Int.tmod t M ≤ halfModulus M
      unfold halfModulus at h ⊢
      omega
  · rw [if_neg h]
    exact ⟨hlb, not_lt.mp h⟩

theorem op_canonical (hM : 0 < M) {a b : RsaElem}
    (ha : Canonical M a) (hb : Canonical M b) : Canonical M (op_ M a b) := by
  have h := op_v hM ha.1 hb.1
  have hr := canon_range hM (Int.emod_nonneg (a.v * b.v) (ne_of_gt hM))
    (Int.emod_lt_of_pos (a.v * b.v) hM)
  exact ⟨h ▸ hr.1, h ▸ hr.2⟩

theorem exp_canonical (hM : 0 < M) (x : RsaElem) (n : ℕ) :
    Canonical M (exp_ M x n) := by
  have h := exp_v hM x n
  have hr := canon_range hM (Int.emod_nonneg (x.v ^ n) (ne_of_gt hM))
    (Int.emod_lt_of_pos (x.v ^ n) hM)
  exact ⟨h ▸ hr.1, h ▸ hr.2⟩

theorem inv_canonical (hM : 0 < M) {x e : RsaElem}
    (h : inv_ M x = some e) : Canonical M e := by
  unfold inv_ invert at h
  by_cases hg : Int.gcd x.v M = 1
  · rw [if_pos hg] at h
    have he : e = elem M (Nat.gcdA (((x.v % M)).toNat) (Int.toNat M) % M) := by
      cases h
      rfl
    rw [he]
    exact elem_canonical hM (Int.emod_nonneg _ (ne_of_gt hM))
  · rw [if_neg hg] at h
    cases h

theorem id_canonical (hM : 0 < M) (hhalf : 1 ≤ halfModulus M) :
    Canonical M (id_ M) := by
  rw [id_val hM hhalf]
  exact ⟨by norm_num, hhalf⟩

theorem one_emod_eq (hM : 1 < M) : (1 : ℤ) % M = 1 :=
  Int.emod_eq_of_lt (by norm_num) hM

theorem canon_one (hhalf : 1 ≤ halfModulus M) : canon M 1 = 1 := by
  unfold canon
  rw [if_neg (not_lt.mpr hhalf)]

/-- Closed form of the n-fold composition of a canonical element. -/
theorem iterOp_v (hM : 0 < M) (hhalf : 1 ≤ halfModulus M) {x : RsaElem}
    (hx : Canonical M x) (n : ℕ) :
    iterOp M x n = ⟨canon M ((x.v ^ n) % M)⟩ := by
  have hM1 : (1 : ℤ) < M :=
    lt_of_le_of_lt hhalf (halfModulus_lt hM)
  induction n with
  | zero =>
    show id_ M = _
    rw [id_val hM hhalf]
    congr 1
    rw [pow_zero, one_emod_eq hM1, canon_one hhalf]
  | succ n ih =>
    show op_ M (iterOp M x n) x = _
    apply RsaElem.ext
    have hnn : (0 : ℤ) ≤ canon M ((x.v ^ n) % M) := canon_emod_nonneg hM _
    have hov := op_v (M := M) (a := ⟨canon M ((x.v ^ n) % M)⟩) (b := x) hM hnn hx.1
    rw [ih, hov]
    apply canon_emod_coset hM
      (mul_nonneg (canon_emod_nonneg hM _) hx.1)
    rcases canon_emod_modeq hM (x.v ^ n) with h | h
    · left
      have h4 := h.mul_right x.v
      rwa [← pow_succ] at h4
    · right
      have h4 := h.mul_right x.v
      rw [neg_mul, ← pow_succ] at h4
      exact h4

/-- The inverse law for a canonical, invertible element. -/
theorem op_inv_eq_id (hM : 0 < M) (hhalf : 1 ≤ halfModulus M) {a : RsaElem}
    (ha : Canonical M a) (hg : Int.gcd a.v M = 1) :
    Option.map (op_ M a) (inv_ M a) = some (id_ M) := by
  obtain ⟨y, hy, hy0, hyM, hmod⟩ := invert_spec hM hg
  have hM1 : (1 : ℤ) < M := lt_of_le_of_lt hhalf (halfModulus_lt hM)
  have hinv : inv_ M a = some (elem M y) := by
    unfold inv_
    rw [hy]
    rfl
  rw [hinv]
  show some (op_ M a (elem M y)) = some (id_ M)
  congr 1
  have hev : (elem M y).v = canon M y := by
    rw [elem_v_nonneg hM hy0, Int.emod_eq_of_lt hy0 hyM]
  have hevC : 0 ≤ (elem M y).v := by
    rw [hev]
    unfold canon
    by_cases h : halfModulus M < y
    · rw [if_pos h]; omega
    · rw [if_neg h]; exact hy0
  apply RsaElem.ext
  rw [op_v hM ha.1 hevC, id_val hM hhalf]
  show canon M ((a.v * (elem M y).v) % M) = 1
  have hs : a.v * (elem M y).v ≡ 1 [ZMOD M] ∨
      a.v * (elem M y).v ≡ -1 [ZMOD M] := by
    have hcy : (elem M y).v ≡ y [ZMOD M] ∨ (elem M y).v ≡ -y [ZMOD M] := by
      rw [hev]
      exact canon_modeq hM y
    have hmul : a.v * (elem M y).v ≡ a.v * y [ZMOD M] ∨
        a.v * (elem M y).v ≡ -(a.v * y) [ZMOD M] := by
      rcases hcy with h | h
      · exact Or.inl (h.mul_left a.v)
      · have h4 := h.mul_left a.v
        rw [mul_neg] at h4
        exact Or.inr h4
    exact pm_trans hmul (Or.inl hmod.symm)
  have := canon_emod_coset hM
    (mul_nonneg ha.1 hevC) (t := 1) hs
  rw [this, one_emod_eq hM1, canon_one hhalf]

end MoreDerived

/-- C1 counterexample: the canonical-representation invariant fails on the
output of `elem_from` at the concrete input `-2` in `Rsa3x5`: the stored
value is `-2`, which is not in `[0, M/2]`. -/
theorem c1_counterexample :
    ¬ Canonical rsa3x5Modulus (elem rsa3x5Modulus (-2)) := by decide

/-- C1 (amended): in both groups, `elem_from` on a non-negative integer, `op`
on two canonical elements, `exp` and `inv` on arbitrary elements, `id`, and
`unknown_order_elem` all produce elements with stored value in `[0, M/2]`;
only `elem_from` on a negative integer can store a non-canonical value. -/
theorem c1_canonical_outputs {M : ℤ} (hM : IsGroupModulus M) :
    (∀ t : ℤ, 0 ≤ t → Canonical M (elem M t)) ∧
    (∀ a b : RsaElem, Canonical M a → Canonical M b → Canonical M (op_ M a b)) ∧
    (∀ (x : RsaElem) (n : ℕ), Canonical M (exp_ M x n)) ∧
    (∀ x e : RsaElem, inv_ M x = some e → Canonical M e) ∧
    Canonical M (id_ M) ∧
    Canonical M (unknownOrderElem M) := by
  have hpos := groupModulus_pos hM
  have hhalf2 := groupModulus_half_pos hM
  refine ⟨fun t ht => elem_canonical hpos ht,
    fun a b ha hb => op_canonical hpos ha hb,
    fun x n => exp_canonical hpos x n,
    fun x e he => inv_canonical hpos he,
    id_canonical hpos (by omega), ?_⟩
  unfold unknownOrderElem
  exact elem_canonical hpos (by norm_num)

/-- C1 witness: the amended theorem applied in `Rsa3x5` at the input `22`. -/
theorem c1_witness : Canonical rsa3x5Modulus (elem rsa3x5Modulus 22) :=
  (c1_canonical_outputs (Or.inl rfl)).1 22 (by norm_num)

/-- C2 counterexample: in `Rsa3x5`, `elem_from(2) ≠ elem_from(-2)` (refuting
the `-t` identity at `t = 2`) and `elem_from(-2) ≠ elem_from(M - (-2))`
(refuting the `M - t` identity at the negative input `t = -2`). -/
theorem c2_counterexample :
    elem rsa3x5Modulus 2 ≠ elem rsa3x5Modulus (-2) ∧
    elem rsa3x5Modulus (-2) ≠ elem rsa3x5Modulus (rsa3x5Modulus - (-2)) := by
  decide

/-- C2 (amended): in both groups, for every integer `t` with `0 ≤ t ≤ M`,
`elem_from(t) == elem_from(M - t)`; the unrestricted coset identities fail
for negative inputs. -/
theorem c2_coset_identity {M : ℤ} (hM : IsGroupModulus M) :
    ∀ t : ℤ, 0 ≤ t → t ≤ M → elem M t = elem M (M - t) := by
  intro t h0 hle
  have hpos := groupModulus_pos hM
  rcases eq_or_lt_of_le hle with heq | hlt
  · subst heq
    have h1 : elem t t = ⟨0⟩ := by
      unfold elem
      rw [Int.tmod_self]
      rw [if_neg (not_lt.mpr (halfModulus_nonneg hpos))]
    have h2 : elem t 0 = ⟨0⟩ :=
      elem_eq_self hpos (by omega) (halfModulus_nonneg hpos)
    rw [sub_self, h1, h2]
  · apply RsaElem.ext
    rw [elem_v_nonneg hpos h0, elem_v_nonneg hpos (by omega)]
    rcases eq_or_lt_of_le h0 with h00 | h00
    · rw [← h00, sub_zero, Int.emod_self, Int.zero_emod]
    · rw [Int.emod_eq_of_lt h0 hlt, Int.emod_eq_of_lt (by omega) (by omega)]
      exact (canon_flip hpos h00 hlt).symm

/-- C2 witness: the amended theorem applied in `Rsa3x5` at `t = 4`. -/
theorem c2_witness :
    elem rsa3x5Modulus 4 = elem rsa3x5Modulus (rsa3x5Modulus - 4) :=
  c2_coset_identity (Or.inl rfl) 4 (by norm_num) (by norm_num [rsa3x5Modulus])

/-- C3 counterexample: associativity fails for elements obtained from the
group's own constructor `elem_from` on a negative integer: with
`a = elem(-2)`, `b = c = elem(3)` in `Rsa3x5`, `op(op(a,b),c)` stores `-3`
while `op(a,op(b,c))` stores `-12`. -/
theorem c3_counterexample :
    op_ rsa3x5Modulus
        (op_ rsa3x5Modulus (elem rsa3x5Modulus (-2)) (elem rsa3x5Modulus 3))
        (elem rsa3x5Modulus 3) ≠
      op_ rsa3x5Modulus (elem rsa3x5Modulus (-2))
        (op_ rsa3x5Modulus (elem rsa3x5Modulus 3) (elem rsa3x5Modulus 3)) := by
  decide

/-- C3 (amended): in both groups, every constructed element is in the stored
range; the identity law and commutativity hold for all stored elements; and
associativity and `op(a, inv(a)) == id()` hold for canonical elements (all
elements built from non-negative data), the inverse law under the
invertibility premise that the source's `unwrap` requires. -/
theorem c3_group_axioms {M : ℤ} (hM : IsGroupModulus M) :
    (∀ t : ℤ, Stored M (elem M t)) ∧
    (∀ a : RsaElem, Stored M a → op_ M a (id_ M) = a) ∧
    (∀ a b : RsaElem, op_ M a b = op_ M b a) ∧
    (∀ a b c : RsaElem, Canonical M a → Canonical M b → Canonical M c →
      op_ M (op_ M a b) c = op_ M a (op_ M b c)) ∧
    (∀ a : RsaElem, Canonical M a → Int.gcd a.v M = 1 →
      Option.map (op_ M a) (inv_ M a) = some (id_ M)) := by
  have hpos := groupModulus_pos hM
  have hhalf2 := groupModulus_half_pos hM
  have hhalf : 1 ≤ halfModulus M := by omega
  exact ⟨fun t => elem_stored hpos t,
    fun a ha => op_id hpos ha hhalf,
    fun a b => op_comm a b,
    fun a b c ha hb hc => op_assoc_canonical hpos ha hb hc,
    fun a ha hg => op_inv_eq_id hpos hhalf ha hg⟩

/-- C3 witness: the amended theorem applied in `Rsa3x5`: the identity law at
`elem(7)` and associativity at `elem(2), elem(4), elem(7)`. -/
theorem c3_witness :
    op_ rsa3x5Modulus (elem rsa3x5Modulus 7) (id_ rsa3x5Modulus) =
      elem rsa3x5Modulus 7 ∧
    op_ rsa3x5Modulus
        (op_ rsa3x5Modulus (elem rsa3x5Modulus 2) (elem rsa3x5Modulus 4))
        (elem rsa3x5Modulus 7) =
      op_ rsa3x5Modulus (elem rsa3x5Modulus 2)
        (op_ rsa3x5Modulus (elem rsa3x5Modulus 4) (elem rsa3x5Modulus 7)) :=
  ⟨(c3_group_axioms (Or.inl rfl)).2.1 _ (by decide),
   (c3_group_axioms (Or.inl rfl)).2.2.2.1 _ _ _ (by decide) (by decide)
     (by decide)⟩

/-- C4: `pow_signed` routing.  In both groups (with `Pow::pow` modelled, per
the spec, as delegation to the group's `exp`): a non-negative exponent is
routed to `pow`, a negative exponent to `efficient_inverse` on its magnitude,
and exponent `0` goes through the non-negative branch and yields the
identity element. -/
theorem c4_pow_signed_routing {M : ℤ} (hM : IsGroupModulus M) :
    ∀ (effInv : RsaElem → ℕ → RsaElem) (x : RsaElem) (e : ℤ),
      (0 ≤ e → powSigned (pow M) effInv x e = some (pow M x (Int.toNat e))) ∧
      (e < 0 → powSigned (pow M) effInv x e = some (effInv x (Int.toNat (-e)))) ∧
      powSigned (pow M) effInv x 0 = some (id_ M) := by
  have hpos := groupModulus_pos hM
  have hhalf2 := groupModulus_half_pos hM
  have hhalf : 1 ≤ halfModulus M := by omega
  have hM1 : (1 : ℤ) < M := lt_of_le_of_lt hhalf (halfModulus_lt hpos)
  intro effInv x e
  refine ⟨fun he => ?_, fun he => ?_, ?_⟩
  · unfold powSigned toBiguint
    rw [if_pos he]
  · unfold powSigned toBiguint
    rw [if_neg (not_le.mpr he), if_pos (by omega : (0 : ℤ) ≤ -e)]
    rfl
  · unfold powSigned toBiguint
    rw [if_pos (le_refl (0 : ℤ))]
    show some (pow M x (Int.toNat 0)) = some (id_ M)
    congr 1
    unfold pow
    apply RsaElem.ext
    rw [exp_v hpos, id_val hpos hhalf]
    show canon M ((x.v ^ (0 : ℕ)) % M) = 1
    rw [pow_zero, one_emod_eq hM1, canon_one hhalf]

/-- C4 witness: the theorem applied in `Rsa3x5` at `x = elem(2)` with the
negative exponent `-3` and the boundary exponent `0`. -/
theorem c4_witness :
    powSigned (pow rsa3x5Modulus) (fun y _ => y) (elem rsa3x5Modulus 2) (-3) =
      some ((fun y _ => y) (elem rsa3x5Modulus 2) (Int.toNat (-(-3 : ℤ)))) ∧
    powSigned (pow rsa3x5Modulus) (fun y _ => y) (elem rsa3x5Modulus 2) 0 =
      some (id_ rsa3x5Modulus) :=
  ⟨(c4_pow_signed_routing (Or.inl rfl) (fun y _ => y) (elem rsa3x5Modulus 2)
      (-3)).2.1 (by norm_num),
   (c4_pow_signed_routing (Or.inl rfl) (fun y _ => y) (elem rsa3x5Modulus 2)
      0).2.2⟩

/-- C5: in both groups, `inv` returns `some` of the canonicalised modular
inverse (the constructor applied to the unique inverse `y ∈ [0, M)` of
`x.v`) when `x.v` is invertible mod `M`, and fails — the embedded value of
the source's `unwrap` panic — exactly when `x.v` is not invertible. -/
theorem c5_inv_spec {M : ℤ} (hM : IsGroupModulus M) :
    ∀ x : RsaElem,
      (Int.gcd x.v M = 1 →
        ∃ y : ℤ, 0 ≤ y ∧ y < M ∧ x.v * y ≡ 1 [ZMOD M] ∧
          inv_ M x = some (elem M y)) ∧
      (Int.gcd x.v M ≠ 1 → inv_ M x = none) := by
  have hpos := groupModulus_pos hM
  intro x
  constructor
  · intro hg
    obtain ⟨y, hy, h0, h1, h2⟩ := invert_spec hpos hg
    refine ⟨y, h0, h1, h2, ?_⟩
    unfold inv_
    rw [hy]
    rfl
  · intro hg
    unfold inv_ invert
    rw [if_neg hg]
    rfl

/-- C5 witness: the theorem applied in `Rsa3x5` at the invertible element
`elem(2)`. -/
theorem c5_witness :
    ∃ y : ℤ, 0 ≤ y ∧ y < rsa3x5Modulus ∧
      (elem rsa3x5Modulus 2).v * y ≡ 1 [ZMOD rsa3x5Modulus] ∧
      inv_ rsa3x5Modulus (elem rsa3x5Modulus 2) =
        some (elem rsa3x5Modulus y) :=
  (c5_inv_spec (Or.inl rfl) (elem rsa3x5Modulus 2)).1 (by decide)

/-- C6 counterexample: exponentiation consistency fails for an element whose
stored value is negative: in `Rsa3x5`, with `x = elem(-2)` and `n = 1 ≤ 12`,
`exp(x, 1)` stores `2` while the 1-fold composition stores `-2`. -/
theorem c6_counterexample :
    exp_ rsa3x5Modulus (elem rsa3x5Modulus (-2)) 1 ≠
      iterOp rsa3x5Modulus (elem rsa3x5Modulus (-2)) 1 := by decide

/-- C6 (amended): in both groups, for every canonical element `x` (stored
value in `[0, M/2]`, e.g. anything built from non-negative data) and every
`n ≤ 12`, `exp(x, n)` equals the n-fold composition of `x` under `op`. -/
theorem c6_exp_consistency {M : ℤ} (hM : IsGroupModulus M) :
    ∀ x : RsaElem, Canonical M x → ∀ n : ℕ, n ≤ 12 →
      exp_ M x n = iterOp M x n := by
  have hpos := groupModulus_pos hM
  have hhalf2 := groupModulus_half_pos hM
  have hhalf : 1 ≤ halfModulus M := by omega
  intro x hx n _
  rw [iterOp_v hpos hhalf hx n]
  apply RsaElem.ext
  rw [exp_v hpos]

/-- C6 witness: the amended theorem applied in `Rsa3x5` at `x = elem(2)`,
`n = 5`. -/
theorem c6_witness :
    exp_ rsa3x5Modulus (elem rsa3x5Modulus 2) 5 =
      iterOp rsa3x5Modulus (elem rsa3x5Modulus 2) 5 :=
  c6_exp_consistency (Or.inl rfl) (elem rsa3x5Modulus 2) (by decide) 5
    (by norm_num)

/-- C7 counterexample: in `Rsa3x5`, `op(elem(-2), elem(3))` is NOT equal to
`elem(6)`: the composition stores the non-canonical `-6` while `elem(6)`
stores `6`. -/
theorem c7_counterexample :
    op_ rsa3x5Modulus (elem rsa3x5Modulus (-2)) (elem rsa3x5Modulus 3) ≠
      elem rsa3x5Modulus 6 := by decide

/-- C7 (amended): in `Rsa3x5`, `op(elem(-2), elem(3)) == elem(-6)` holds,
but that common value stores `-6` — it is not canonicalised to `6` and is
distinct from `elem(6)`. -/
theorem c7_tiny_coset_scenario :
    op_ rsa3x5Modulus (elem rsa3x5Modulus (-2)) (elem rsa3x5Modulus 3) =
      elem rsa3x5Modulus (-6) ∧
    (elem rsa3x5Modulus (-6)).v = -6 ∧
    elem rsa3x5Modulus (-6) ≠ elem rsa3x5Modulus 6 := by decide

/-- C8: canonicalisation idempotence.  In both groups, re-applying the
constructor to the value stored inside any constructed element changes
nothing — this holds even for the negative stored values the constructor
lets through, because they survive the truncating `%` unchanged and never
take the `> M/2` branch. -/
theorem c8_canonicalization_idempotent {M : ℤ} (hM : IsGroupModulus M) :
    ∀ t : ℤ, elem M ((elem M t).v) = elem M t := by
  have hpos := groupModulus_pos hM
  intro t
  obtain ⟨h1, h2⟩ := elem_stored hpos t
  rw [elem_eq_self hpos h1 h2]

/-- C8 witness: the theorem applied in `Rsa3x5` at the negative input `-7`. -/
theorem c8_witness :
    elem rsa3x5Modulus ((elem rsa3x5Modulus (-7)).v) =
      elem rsa3x5Modulus (-7) :=
  c8_canonicalization_idempotent (Or.inl rfl) (-7)

/-- C9: implicit repair property.  In both groups, every element returned by
`exp_` or `inv_` — for an arbitrary input element, including one with a
negative stored value — and the `id_` element have their stored value in
`[0, M/2]`, because the modular-power and modular-inverse primitives return
a non-negative residue that the constructor then canonicalises. -/
theorem c9_library_repair {M : ℤ} (hM : IsGroupModulus M) :
    (∀ (x : RsaElem) (n : ℕ), Canonical M (exp_ M x n)) ∧
    (∀ x e : RsaElem, inv_ M x = some e → Canonical M e) ∧
    Canonical M (id_ M) := by
  have hpos := groupModulus_pos hM
  have hhalf2 := groupModulus_half_pos hM
  exact ⟨fun x n => exp_canonical hpos x n,
    fun x e he => inv_canonical hpos he,
    id_canonical hpos (by omega)⟩

/-- C9 witness: the theorem applied in `Rsa3x5` to the element with stored
value `-2`, exponent `3`. -/
theorem c9_witness : Canonical rsa3x5Modulus (exp_ rsa3x5Modulus ⟨-2⟩ 3) :=
  (c9_library_repair (Or.inl rfl)).1 ⟨-2⟩ 3

/-- C10: `pow_signed` is total.  Whenever `to_biguint` fails on the exponent
(the exponent is negative), it succeeds on the negated exponent, so the
`expect` in the negative branch never panics and `pow_signed` always
produces a value, for any `pow` and `efficient_inverse`. -/
theorem c10_pow_signed_total :
    ∀ e : ℤ,
      (toBiguint e = none → Option.isSome (toBiguint (-e)) = true) ∧
      (∀ (pw effInv : RsaElem → ℕ → RsaElem) (x : RsaElem),
        Option.isSome (powSigned pw effInv x e) = true) := by
  intro e
  constructor
  · intro h
    unfold toBiguint at h ⊢
    by_cases he : 0 ≤ e
    · rw [if_pos he] at h
      cases h
    · rw [if_pos (by omega : (0 : ℤ) ≤ -e)]
      rfl
  · intro pw effInv x
    unfold powSigned toBiguint
    by_cases he : 0 ≤ e
    · rw [if_pos he]
      rfl
    · rw [if_neg he, if_pos (by omega : (0 : ℤ) ≤ -e)]
      rfl

/-- C10 witness: the theorem applied at the negative exponent `-5`. -/
theorem c10_witness : Option.isSome (toBiguint (-(-5 : ℤ))) = true :=
  (c10_pow_signed_total (-5)).1 (by decide)
